import Mathlib

/-!
Shallow embedding of `src/EventEmitter.ts`: a typed publish/subscribe class.

Modelling choices, each traceable to the TypeScript source:

* `EventName` is `String` (object keys).  A listener function is identified by
  its reference; we model references as `Nat` ids (`Listener`).  Payloads are
  passed through positionally and never inspected by the emitter, so they do
  not appear in the state model; the invocation log records which listener
  references were called, in order.
* `listeners : { [K in keyof T]?: Set<Listener<T[K]>> }` becomes an
  insertion-ordered association list `List (EventName × List Listener)`;
  each JS `Set` becomes an insertion-ordered duplicate-free list
  (`setAdd` is `Set.add`, i.e. a no-op when the element is present, and
  `setDelete` is `Set.delete`).
* `onceList : Set<unknown>` becomes a `List Listener` with the same set
  operations.
* A listener callback may call back into the emitter API; its effect is given
  by an environment `Listener → LBehavior` assigning each listener reference a
  list of API calls it performs, plus whether it then throws.  (Behaviors do
  not nest `emit`; reentrant emission is outside the verified claims.)
* `emit` captures JS `Set.forEach` live iteration: repeatedly invoke the first
  listener of the current live set (looked up afresh) that has not been
  visited yet.  The loop is fuel-bounded; the fuel `initial length + 1` is
  exact whenever invoked listeners do not subscribe new listeners to the
  emitted name mid-pass (in JS such a pass can even diverge).  A thrown error
  is not caught: the loop stops, reporting `threw = true` and the invocations
  performed so far.
* The class methods `on`, `once`, `off` are pure delegation to
  `addEventListener` / `removeEventListener` and add no semantics, so they are
  not repeated here.
-/

abbrev EventName := String

abbrev Listener := Nat

/-- The private state of an `EventEmitter` instance: the registry of
listeners grouped by event name, and the set of once-marked listeners. -/
structure EventEmitter where
  listeners : List (EventName × List Listener)
  onceList : List Listener
deriving Repr, DecidableEq

/-- Reading `this.listeners[name]`: the first entry for the key, if any. -/
def getListeners : List (EventName × List Listener) → EventName → Option (List Listener)
  | [], _ => none
  | entry :: rest, n => if entry.fst = n then some entry.snd else getListeners rest n

/-- Writing `this.listeners[name] = v`: replace the entry in place, or append
a fresh one (JS object keys keep insertion order). -/
def setListeners : List (EventName × List Listener) → EventName → List Listener → List (EventName × List Listener)
  | [], n, v => [(n, v)]
  | entry :: rest, n, v =>
    if entry.fst = n then (n, v) :: rest else entry :: setListeners rest n v

/-- The statement `delete this.listeners[name]`. -/
def deleteEntry (m : List (EventName × List Listener)) (n : EventName) : List (EventName × List Listener) :=
  m.filter (fun entry => decide (entry.fst ≠ n))

/-- JS `Set.add`: a no-op when the element is already present, otherwise
appended at the end (JS sets iterate in insertion order). -/
def setAdd (s : List Listener) (l : Listener) : List Listener :=
  if l ∈ s then s else s ++ [l]

/-- JS `Set.delete`: drop the element if present. -/
def setDelete (s : List Listener) (l : Listener) : List Listener :=
  s.filter (fun y => decide (y ≠ l))

/-- `addEventListener(name, listener, options?)` with the `once` option after
defaulting (`{once: false, ...options}`). -/
def addEventListener (e : EventEmitter) (n : EventName) (l : Listener) (onceOpt : Bool) : EventEmitter :=
  let ls := (getListeners e.listeners n).getD []
  { listeners := setListeners e.listeners n (setAdd ls l)
    onceList := if onceOpt then setAdd e.onceList l else e.onceList }

/-- `removeEventListener(name, listener)`.  Note the early `return` when the
name has no listener set: in that case nothing at all happens, in particular
`onceList` is left untouched. -/
def removeEventListener (e : EventEmitter) (n : EventName) (l : Listener) : EventEmitter :=
  match getListeners e.listeners n with
  | none => e
  | some ls =>
    let ls' := setDelete ls l
    { listeners := if ls' = [] then deleteEntry e.listeners n else setListeners e.listeners n ls'
      onceList := setDelete e.onceList l }

/-- `removeAllEventListeners()`: fresh registry, cleared once-set. -/
def removeAllEventListeners (_e : EventEmitter) : EventEmitter :=
  { listeners := [], onceList := [] }

/-- One call into the emitter API that a listener callback may perform. -/
inductive EmitterOp where
  | sub (n : EventName) (l : Listener) (onceOpt : Bool)
  | unsub (n : EventName) (l : Listener)
  | unsubAll
deriving Repr, DecidableEq

/-- Interpret one API call. -/
def runOp (e : EventEmitter) : EmitterOp → EventEmitter
  | .sub n l o => addEventListener e n l o
  | .unsub n l => removeEventListener e n l
  | .unsubAll => removeAllEventListeners e

/-- Interpret a sequence of API calls, left to right. -/
def runOps (e : EventEmitter) : List EmitterOp → EventEmitter
  | [] => e
  | op :: rest => runOps (runOp e op) rest

/-- The behavior of one listener callback when invoked: the API calls it
performs on the emitter, and whether it then throws. -/
structure LBehavior where
  ops : List EmitterOp
  throws : Bool
deriving Repr, DecidableEq

/-- A listener that neither touches the emitter nor throws. -/
def pureB : LBehavior := ⟨[], false⟩

/-- Outcome of one `emit` call: the final emitter state, the listener
references invoked in order, and whether a listener's error propagated out. -/
structure EmitResult where
  state : EventEmitter
  log : List Listener
  threw : Bool
deriving Repr, DecidableEq

/-- The body of `emit`: JS `Set.forEach` live iteration.  Each round invokes
the first listener of the current live set that was not visited yet; after the
listener returns, `if (this.onceList.has(listener)) removeEventListener(name,
listener)` is applied before moving on.  A throw aborts the loop uncaught. -/
def emitLoop (env : Listener → LBehavior) (n : EventName) :
    Nat → EventEmitter → List Listener → List Listener → EmitResult
  | 0, e, _, logAcc => ⟨e, logAcc.reverse, false⟩
  | fuel + 1, e, visited, logAcc =>
    match ((getListeners e.listeners n).getD []).find? (fun x => decide (x ∉ visited)) with
    | none => ⟨e, logAcc.reverse, false⟩
    | some l =>
      let b := env l
      let e1 := runOps e b.ops
      if b.throws then
        ⟨e1, (l :: logAcc).reverse, true⟩
      else
        let e2 := if l ∈ e1.onceList then removeEventListener e1 n l else e1
        emitLoop env n fuel e2 (l :: visited) (l :: logAcc)

/-- `emit(name, ...payload)`: early return when the name has no listener set,
otherwise iterate over that set. -/
def emit (env : Listener → LBehavior) (e : EventEmitter) (n : EventName) : EmitResult :=
  match getListeners e.listeners n with
  | none => ⟨e, [], false⟩
  | some ls => emitLoop env n (ls.length + 1) e [] []

/-- Emit the same event `N` times in sequence, concatenating the logs. -/
def emitTimes (env : Listener → LBehavior) (n : EventName) : Nat → EventEmitter → EventEmitter × List Listener
  | 0, e => (e, [])
  | N + 1, e =>
    let r := emit env e n
    let p := emitTimes env n N r.state
    (p.1, r.log ++ p.2)

/-- Number of occurrences of a listener reference in an invocation log. -/
def countOcc : List Listener → Listener → Nat
  | [], _ => 0
  | y :: rest, x => (if y = x then 1 else 0) + countOcc rest x

/-- State after a full emission pass over listener list `ls` in which no
invoked listener touches the emitter: every once-marked member of `ls` is
unsubscribed (the whole entry disappearing if none remain), and exactly the
members of `ls` leave the once-set. -/
def pureRunState (e : EventEmitter) (n : EventName) (ls : List Listener) : EventEmitter :=
  let rem := ls.filter (fun x => decide (x ∉ e.onceList))
  { listeners := if rem = [] then deleteEntry e.listeners n else setListeners e.listeners n rem
    onceList := e.onceList.filter (fun y => decide (y ∉ ls)) }

/-- Invariant I2: no event name is mapped to an empty listener set. -/
def I2 (e : EventEmitter) : Prop :=
  ∀ p ∈ e.listeners, p.snd ≠ []

/-- Emitter states reachable from a freshly constructed emitter by the public
API; `emit` runs with an arbitrary environment of listener behaviors. -/
inductive Reachable : EventEmitter → Prop where
  | init : Reachable ⟨[], []⟩
  | sub : ∀ (e : EventEmitter) (n : EventName) (l : Listener) (o : Bool),
      Reachable e → Reachable (addEventListener e n l o)
  | unsub : ∀ (e : EventEmitter) (n : EventName) (l : Listener),
      Reachable e → Reachable (removeEventListener e n l)
  | clear : ∀ (e : EventEmitter),
      Reachable e → Reachable (removeAllEventListeners e)
  | emitStep : ∀ (e : EventEmitter) (env : Listener → LBehavior) (n : EventName),
      Reachable e → Reachable (emit env e n).state

/-! ### Association-list and ordered-set lemmas -/

theorem getListeners_setListeners_self (m : List (EventName × List Listener)) (n : EventName) (v : List Listener) :
    getListeners (setListeners m n v) n = some v := by
  induction m with
  | nil => simp [setListeners, getListeners]
  | cons entry rest ih =>
    by_cases h : entry.fst = n
    · simp [setListeners, h, getListeners]
    · simp [setListeners, h, getListeners, ih]

theorem getListeners_setListeners_ne (m : List (EventName × List Listener)) (n n' : EventName) (v : List Listener)
    (h : n' ≠ n) : getListeners (setListeners m n v) n' = getListeners m n' := by
  have h1 : ¬ n = n' := Ne.symm h
  induction m with
  | nil => simp [setListeners, getListeners, h1]
  | cons entry rest ih =>
    by_cases he : entry.fst = n
    · have h2 : ¬ entry.fst = n' := by rw [he]; exact h1
      simp only [setListeners, if_pos he, getListeners, if_neg h1, if_neg h2]
    · by_cases he' : entry.fst = n'
      · simp only [setListeners, if_neg he, getListeners, if_pos he']
      · simp only [setListeners, if_neg he, getListeners, if_neg he', ih]

theorem getListeners_deleteEntry_self (m : List (EventName × List Listener)) (n : EventName) :
    getListeners (deleteEntry m n) n = none := by
  induction m with
  | nil => simp [deleteEntry, getListeners]
  | cons entry rest ih =>
    by_cases h : entry.fst = n
    · simpa [deleteEntry, List.filter_cons, h] using ih
    · simpa [deleteEntry, List.filter_cons, h, getListeners] using ih

theorem getListeners_deleteEntry_ne (m : List (EventName × List Listener)) (n n' : EventName)
    (h : n' ≠ n) : getListeners (deleteEntry m n) n' = getListeners m n' := by
  induction m with
  | nil => simp [deleteEntry, getListeners]
  | cons entry rest ih =>
    by_cases he : entry.fst = n
    · have h2 : ¬ entry.fst = n' := by rw [he]; exact Ne.symm h
      have hstep : deleteEntry (entry :: rest) n = deleteEntry rest n := by
        simp [deleteEntry, List.filter_cons, he]
      rw [hstep, ih]
      simp only [getListeners, if_neg h2]
    · have hstep : deleteEntry (entry :: rest) n = entry :: deleteEntry rest n := by
        simp [deleteEntry, List.filter_cons, he]
      rw [hstep]
      by_cases he' : entry.fst = n'
      · simp only [getListeners, if_pos he']
      · simp only [getListeners, if_neg he', ih]

theorem setListeners_collapse (m : List (EventName × List Listener)) (n : EventName) (u v : List Listener) :
    setListeners (setListeners m n u) n v = setListeners m n v := by
  induction m with
  | nil => simp [setListeners]
  | cons entry rest ih =>
    by_cases h : entry.fst = n
    · simp [setListeners, h]
    · simp [setListeners, h, ih]

theorem deleteEntry_setListeners (m : List (EventName × List Listener)) (n : EventName) (v : List Listener) :
    deleteEntry (setListeners m n v) n = deleteEntry m n := by
  induction m with
  | nil => simp [setListeners, deleteEntry, List.filter_cons]
  | cons entry rest ih =>
    by_cases h : entry.fst = n
    · simp [setListeners, h, deleteEntry, List.filter_cons]
    · simpa [setListeners, h, deleteEntry, List.filter_cons] using ih

theorem setListeners_self (m : List (EventName × List Listener)) (n : EventName) (v : List Listener)
    (h : getListeners m n = some v) : setListeners m n v = m := by
  induction m with
  | nil => simp [getListeners] at h
  | cons entry rest ih =>
    by_cases he : entry.fst = n
    · rw [getListeners, if_pos he] at h
      have hv : entry.snd = v := by injection h
      have : entry = (n, v) := by
        cases entry
        simp_all
      simp [setListeners, he, this]
    · rw [getListeners, if_neg he] at h
      simp [setListeners, he, ih h]

theorem mem_setListeners (m : List (EventName × List Listener)) (n : EventName) (v : List Listener)
    (p : EventName × List Listener) (hp : p ∈ setListeners m n v) : p ∈ m ∨ p = (n, v) := by
  induction m with
  | nil => simp [setListeners] at hp; simp [hp]
  | cons entry rest ih =>
    by_cases h : entry.fst = n
    · rw [setListeners, if_pos h] at hp
      rcases List.mem_cons.1 hp with h1 | h1
      · right; exact h1
      · left; exact List.mem_cons_of_mem _ h1
    · rw [setListeners, if_neg h] at hp
      rcases List.mem_cons.1 hp with h1 | h1
      · left; exact h1 ▸ List.mem_cons_self _ _
      · rcases ih h1 with h2 | h2
        · left; exact List.mem_cons_of_mem _ h2
        · right; exact h2

theorem find?_skip (p : Listener → Bool) (u v : List Listener)
    (hu : ∀ y ∈ u, p y = false) : (u ++ v).find? p = v.find? p := by
  induction u with
  | nil => simp
  | cons y rest ih =>
    have hy : p y = false := hu y (List.mem_cons_self _ _)
    rw [List.cons_append, List.find?_cons_of_neg _ (by simp [hy])]
    exact ih (fun z hz => hu z (List.mem_cons_of_mem _ hz))

theorem find?_first (visited : List Listener) (u : List Listener) (x : Listener) (w : List Listener)
    (hu : ∀ y ∈ u, y ∈ visited) (hx : x ∉ visited) :
    (u ++ x :: w).find? (fun z => decide (z ∉ visited)) = some x := by
  rw [find?_skip _ u _ (fun y hy => by simp [hu y hy])]
  exact List.find?_cons_of_pos _ (by simp [hx])

theorem find?_all_visited (visited : List Listener) (u : List Listener)
    (hu : ∀ y ∈ u, y ∈ visited) :
    u.find? (fun z => decide (z ∉ visited)) = none := by
  have := find?_skip (fun z => decide (z ∉ visited)) u [] (fun y hy => by simp [hu y hy])
  simpa using this

theorem filterNe_split (x : Listener) (u v : List Listener) (hu : x ∉ u) (hv : x ∉ v) :
    (u ++ x :: v).filter (fun y => decide (y ≠ x)) = u ++ v := by
  have hpu : ∀ a ∈ u, (fun y => decide (y ≠ x)) a = true := by
    intro a ha
    simp only [decide_eq_true_eq, ne_eq]
    exact fun he => hu (he ▸ ha)
  have hpv : ∀ a ∈ v, (fun y => decide (y ≠ x)) a = true := by
    intro a ha
    simp only [decide_eq_true_eq, ne_eq]
    exact fun he => hv (he ▸ ha)
  have hcons : (x :: v).filter (fun y => decide (y ≠ x)) = v.filter (fun y => decide (y ≠ x)) := by
    simp [List.filter_cons]
  rw [List.filter_append, List.filter_eq_self.2 hpu, hcons, List.filter_eq_self.2 hpv]

theorem filterCongr {α : Type} (l : List α) (p q : α → Bool)
    (h : ∀ x ∈ l, p x = q x) : l.filter p = l.filter q := by
  induction l with
  | nil => rfl
  | cons a rest ih =>
    rw [List.filter_cons, List.filter_cons,
      h a (List.mem_cons_self _ _), ih (fun x hx => h x (List.mem_cons_of_mem _ hx))]

theorem filter_all_true {α : Type} (l : List α) (p : α → Bool)
    (h : ∀ x ∈ l, p x = true) : l.filter p = l :=
  List.filter_eq_self.2 h

theorem nodup_split (u : List Listener) (x : Listener) (v : List Listener)
    (h : (u ++ x :: v).Nodup) : x ∉ u ∧ x ∉ v ∧ (u ++ v).Nodup := by
  induction u with
  | nil =>
    simp only [List.nil_append, List.nodup_cons] at h
    exact ⟨by simp, h.1, h.2⟩
  | cons a rest ih =>
    rw [List.cons_append, List.nodup_cons] at h
    rcases ih h.2 with ⟨h1, h2, h3⟩
    have hax : a ≠ x := by
      intro he
      exact h.1 (he ▸ List.mem_append_right _ (List.mem_cons_self _ _))
    refine ⟨?_, h2, ?_⟩
    · simp only [List.mem_cons, not_or]
      exact ⟨fun he => hax he.symm, h1⟩
    · rw [List.cons_append, List.nodup_cons]
      refine ⟨?_, h3⟩
      intro ha
      rcases List.mem_append.1 ha with h4 | h4
      · exact h.1 (List.mem_append_left _ h4)
      · exact h.1 (List.mem_append_right _ (List.mem_cons_of_mem _ h4))

theorem countOcc_append (u v : List Listener) (x : Listener) :
    countOcc (u ++ v) x = countOcc u x + countOcc v x := by
  induction u with
  | nil => simp [countOcc]
  | cons a rest ih => simp [countOcc, ih]; omega

theorem countOcc_eq_zero (l : List Listener) (x : Listener) (h : x ∉ l) :
    countOcc l x = 0 := by
  induction l with
  | nil => rfl
  | cons a rest ih =>
    have hax : ¬ a = x := fun he => h (he ▸ List.mem_cons_self _ _)
    simp [countOcc, hax, ih (fun hm => h (List.mem_cons_of_mem _ hm))]

theorem countOcc_eq_one (l : List Listener) (x : Listener) (hnd : l.Nodup) (hm : x ∈ l) :
    countOcc l x = 1 := by
  induction l with
  | nil => simp at hm
  | cons a rest ih =>
    rw [List.nodup_cons] at hnd
    rcases List.mem_cons.1 hm with he | hm'
    · rw [countOcc, if_pos he.symm, countOcc_eq_zero rest x (he ▸ hnd.1)]
    · have hax : ¬ a = x := fun he => hnd.1 (he ▸ hm')
      rw [countOcc, if_neg hax, ih hnd.2 hm']

/-! ### Unfolding lemmas for the emission loop -/

theorem emitLoop_stop (env : Listener → LBehavior) (n : EventName) (fuel : Nat)
    (e : EventEmitter) (visited logAcc : List Listener)
    (h : ((getListeners e.listeners n).getD []).find? (fun x => decide (x ∉ visited)) = none) :
    emitLoop env n (fuel + 1) e visited logAcc = ⟨e, logAcc.reverse, false⟩ := by
  simp only [emitLoop, h]

theorem emitLoop_step_throw (env : Listener → LBehavior) (n : EventName) (fuel : Nat)
    (e : EventEmitter) (visited logAcc : List Listener) (l : Listener)
    (hfind : ((getListeners e.listeners n).getD []).find? (fun x => decide (x ∉ visited)) = some l)
    (ht : (env l).throws = true) :
    emitLoop env n (fuel + 1) e visited logAcc =
      ⟨runOps e (env l).ops, (l :: logAcc).reverse, true⟩ := by
  simp only [emitLoop, hfind, ht, if_true]

theorem emitLoop_step_nothrow (env : Listener → LBehavior) (n : EventName) (fuel : Nat)
    (e : EventEmitter) (visited logAcc : List Listener) (l : Listener)
    (hfind : ((getListeners e.listeners n).getD []).find? (fun x => decide (x ∉ visited)) = some l)
    (ht : (env l).throws = false) :
    emitLoop env n (fuel + 1) e visited logAcc =
      emitLoop env n fuel
        (if l ∈ (runOps e (env l).ops).onceList
          then removeEventListener (runOps e (env l).ops) n l
          else runOps e (env l).ops)
        (l :: visited) (l :: logAcc) := by
  simp only [emitLoop, hfind, ht]
  simp

theorem emitLoop_step_pure (env : Listener → LBehavior) (n : EventName) (fuel : Nat)
    (e : EventEmitter) (visited logAcc : List Listener) (l : Listener)
    (hfind : ((getListeners e.listeners n).getD []).find? (fun x => decide (x ∉ visited)) = some l)
    (hp : env l = pureB) :
    emitLoop env n (fuel + 1) e visited logAcc =
      emitLoop env n fuel (if l ∈ e.onceList then removeEventListener e n l else e)
        (l :: visited) (l :: logAcc) := by
  rw [emitLoop_step_nothrow env n fuel e visited logAcc l hfind (by rw [hp]; rfl)]
  rw [hp]
  rfl

/-- Workhorse: a run of the emission loop over remaining listeners `suf`, none
of which touches the emitter or throws.  All of `suf` is invoked in order; the
once-marked members of `suf` are unsubscribed along the way. -/
theorem emitLoop_pure (env : Listener → LBehavior) (n : EventName) :
    ∀ (suf : List Listener) (fuel : Nat) (e : EventEmitter) (pre visited logAcc : List Listener),
    getListeners e.listeners n = some (pre ++ suf) →
    (pre ++ suf).Nodup →
    pre ++ suf ≠ [] →
    (∀ y ∈ pre, y ∈ visited) →
    (∀ y ∈ suf, y ∉ visited) →
    (∀ y ∈ suf, env y = pureB) →
    suf.length < fuel →
    emitLoop env n fuel e visited logAcc =
      ⟨⟨(if pre ++ suf.filter (fun x => decide (x ∉ e.onceList)) = []
          then deleteEntry e.listeners n
          else setListeners e.listeners n (pre ++ suf.filter (fun x => decide (x ∉ e.onceList)))),
        e.onceList.filter (fun y => decide (y ∉ suf))⟩,
       logAcc.reverse ++ suf, false⟩ := by
  intro suf
  induction suf with
  | nil =>
    intro fuel e pre visited logAcc hget hnd hne hpre hsuf hpure hfuel
    obtain ⟨f, rfl⟩ : ∃ f, fuel = f + 1 := ⟨fuel - 1, by omega⟩
    rw [List.append_nil] at hget hne
    rw [emitLoop_stop env n f e visited logAcc (by
      rw [hget, Option.getD_some]
      exact find?_all_visited visited pre hpre)]
    have h2 : e.onceList.filter (fun y => decide (y ∉ ([] : List Listener))) = e.onceList := by
      exact filter_all_true _ _ (fun x _ => by simp)
    simp only [List.filter_nil, List.append_nil]
    rw [if_neg hne, setListeners_self e.listeners n pre hget, h2]
  | cons x rest ih =>
    intro fuel e pre visited logAcc hget hnd hne hpre hsuf hpure hfuel
    obtain ⟨f, rfl⟩ : ∃ f, fuel = f + 1 := ⟨fuel - 1, by omega⟩
    have hxv : x ∉ visited := hsuf x (List.mem_cons_self _ _)
    obtain ⟨hxpre, hxrest, hndpr⟩ := nodup_split pre x rest hnd
    have hfind : ((getListeners e.listeners n).getD []).find? (fun z => decide (z ∉ visited)) = some x := by
      rw [hget, Option.getD_some]
      exact find?_first visited pre x rest hpre hxv
    rw [emitLoop_step_pure env n f e visited logAcc x hfind (hpure x (List.mem_cons_self _ _))]
    by_cases ho : x ∈ e.onceList
    · rw [if_pos ho]
      have hrm : removeEventListener e n x =
          ⟨if pre ++ rest = [] then deleteEntry e.listeners n
            else setListeners e.listeners n (pre ++ rest),
           setDelete e.onceList x⟩ := by
        simp only [removeEventListener, hget, setDelete]
        rw [filterNe_split x pre rest hxpre hxrest]
      have hfx : (x :: rest).filter (fun z => decide (z ∉ e.onceList)) =
          rest.filter (fun z => decide (z ∉ e.onceList)) := by
        rw [List.filter_cons, if_neg (by simp [ho])]
      by_cases hempty : pre ++ rest = []
      · rw [hrm, if_pos hempty]
        obtain ⟨f', rfl⟩ : ∃ f', f = f' + 1 := ⟨f - 1, by
          simp only [List.length_cons] at hfuel; omega⟩
        rw [emitLoop_stop env n f' _ (x :: visited) (x :: logAcc) (by
          show ((getListeners (deleteEntry e.listeners n) n).getD []).find? _ = none
          rw [getListeners_deleteEntry_self]
          rfl)]
        obtain ⟨hpe, hre⟩ := List.append_eq_nil.1 hempty
        subst hpe; subst hre
        have honce : setDelete e.onceList x =
            e.onceList.filter (fun y => decide (y ∉ [x])) := by
          rw [setDelete]
          exact filterCongr _ _ _ (fun y _ => by simp)
        rw [honce]
        simp [List.filter_cons, ho]
      · rw [hrm, if_neg hempty]
        rw [ih f ⟨setListeners e.listeners n (pre ++ rest), setDelete e.onceList x⟩ pre
          (x :: visited) (x :: logAcc)
          (getListeners_setListeners_self e.listeners n (pre ++ rest))
          hndpr hempty
          (fun y hy => List.mem_cons_of_mem _ (hpre y hy))
          (fun y hy => by
            simp only [List.mem_cons, not_or]
            refine ⟨fun he => hxrest (he ▸ hy), hsuf y (List.mem_cons_of_mem _ hy)⟩)
          (fun y hy => hpure y (List.mem_cons_of_mem _ hy))
          (by simp only [List.length_cons] at hfuel; omega)]
        have hfilter : rest.filter (fun z => decide (z ∉ setDelete e.onceList x)) =
            rest.filter (fun z => decide (z ∉ e.onceList)) := by
          refine filterCongr _ _ _ (fun z hz => ?_)
          refine decide_eq_decide.2 ?_
          have hzx : z ≠ x := fun he => hxrest (he ▸ hz)
          simp [setDelete, List.mem_filter, hzx]
        have honce : (setDelete e.onceList x).filter (fun y => decide (y ∉ rest)) =
            e.onceList.filter (fun y => decide (y ∉ x :: rest)) := by
          rw [setDelete, List.filter_filter]
          refine filterCongr _ _ _ (fun y _ => ?_)
          by_cases h1 : y = x <;> by_cases h2 : y ∈ rest <;>
            simp [h1, h2, List.mem_cons]
        rw [hfilter, honce, hfx, deleteEntry_setListeners, setListeners_collapse]
        simp
    · rw [if_neg ho]
      have hassoc : (pre ++ [x]) ++ rest = pre ++ x :: rest := by simp
      have hfx : (x :: rest).filter (fun z => decide (z ∉ e.onceList)) =
          x :: rest.filter (fun z => decide (z ∉ e.onceList)) := by
        rw [List.filter_cons, if_pos (by simp [ho])]
      rw [ih f e (pre ++ [x]) (x :: visited) (x :: logAcc)
        (by rw [hassoc]; exact hget)
        (by rw [hassoc]; exact hnd)
        (by simp)
        (fun y hy => by
          rcases List.mem_append.1 hy with h1 | h1
          · exact List.mem_cons_of_mem _ (hpre y h1)
          · rw [List.mem_singleton.1 h1]; exact List.mem_cons_self _ _)
        (fun y hy => by
          simp only [List.mem_cons, not_or]
          refine ⟨fun he => hxrest (he ▸ hy), hsuf y (List.mem_cons_of_mem _ hy)⟩)
        (fun y hy => hpure y (List.mem_cons_of_mem _ hy))
        (by simp only [List.length_cons] at hfuel; omega)]
      have honce : e.onceList.filter (fun y => decide (y ∉ rest)) =
          e.onceList.filter (fun y => decide (y ∉ x :: rest)) := by
        refine filterCongr _ _ _ (fun y hy => ?_)
        have hyx : y ≠ x := fun he => ho (he ▸ hy)
        simp [List.mem_cons, hyx]
      have hlist : (pre ++ [x]) ++ rest.filter (fun z => decide (z ∉ e.onceList)) =
          pre ++ (x :: rest).filter (fun z => decide (z ∉ e.onceList)) := by
        rw [hfx]; simp
      rw [honce] at *
      rw [hlist]
      simp

/-- Full `emit` over a registered listener list none of whose members touches
the emitter or throws: every listener fires, in insertion order. -/
theorem emit_pure (env : Listener → LBehavior) (e : EventEmitter) (n : EventName) (ls : List Listener)
    (hget : getListeners e.listeners n = some ls)
    (hnd : ls.Nodup) (hne : ls ≠ [])
    (hpure : ∀ x ∈ ls, env x = pureB) :
    emit env e n = ⟨pureRunState e n ls, ls, false⟩ := by
  simp only [emit, hget]
  rw [emitLoop_pure env n ls (ls.length + 1) e [] [] []
    (by rw [List.nil_append]; exact hget)
    (by rw [List.nil_append]; exact hnd)
    (by rw [List.nil_append]; exact hne)
    (fun y hy => absurd hy (List.not_mem_nil y))
    (fun y _ => List.not_mem_nil y)
    hpure
    (by omega)]
  simp [pureRunState]

/-- Running the loop across a contiguous segment `P` of still-unvisited pure
listeners, with a nonempty remainder `tail` still to go: all of `P` is
invoked, its once-marked members get unsubscribed, and the loop continues. -/
theorem emitLoop_pureSegment (env : Listener → LBehavior) (n : EventName) :
    ∀ (P : List Listener) (fuel : Nat) (e : EventEmitter) (pre tail visited logAcc : List Listener),
    getListeners e.listeners n = some (pre ++ (P ++ tail)) →
    (pre ++ (P ++ tail)).Nodup →
    tail ≠ [] →
    (∀ y ∈ pre, y ∈ visited) →
    (∀ y ∈ P ++ tail, y ∉ visited) →
    (∀ y ∈ P, env y = pureB) →
    P.length ≤ fuel →
    emitLoop env n fuel e visited logAcc =
      emitLoop env n (fuel - P.length)
        ⟨setListeners e.listeners n (pre ++ (P.filter (fun x => decide (x ∉ e.onceList)) ++ tail)),
         e.onceList.filter (fun y => decide (y ∉ P))⟩
        (P.reverse ++ visited) (P.reverse ++ logAcc) := by
  intro P
  induction P with
  | nil =>
    intro fuel e pre tail visited logAcc hget hnd htail hpre hPt hpure hfuel
    have h2 : e.onceList.filter (fun y => decide (y ∉ ([] : List Listener))) = e.onceList :=
      filter_all_true _ _ (fun x _ => by simp)
    simp only [List.filter_nil, List.nil_append, List.reverse_nil, Nat.sub_zero]
    rw [setListeners_self e.listeners n (pre ++ tail) (by simpa using hget), h2]
    rfl
  | cons x Q ih =>
    intro fuel e pre tail visited logAcc hget hnd htail hpre hPt hpure hfuel
    obtain ⟨f, rfl⟩ : ∃ f, fuel = f + 1 := ⟨fuel - 1, by
      simp only [List.length_cons] at hfuel; omega⟩
    have hget' : getListeners e.listeners n = some (pre ++ x :: (Q ++ tail)) := by
      simpa using hget
    have hnd' : (pre ++ x :: (Q ++ tail)).Nodup := by simpa using hnd
    obtain ⟨hxpre, hxqt, hndpr⟩ := nodup_split pre x (Q ++ tail) hnd'
    have hxv : x ∉ visited := hPt x (by simp)
    have hfind : ((getListeners e.listeners n).getD []).find? (fun z => decide (z ∉ visited)) = some x := by
      rw [hget', Option.getD_some]
      exact find?_first visited pre x (Q ++ tail) hpre hxv
    rw [emitLoop_step_pure env n f e visited logAcc x hfind (hpure x (by simp))]
    have hQt : ∀ y ∈ Q ++ tail, y ∉ x :: visited := by
      intro y hy
      simp only [List.mem_cons, not_or]
      exact ⟨fun he => hxqt (he ▸ hy), hPt y (by simpa using List.mem_cons_of_mem x hy)⟩
    by_cases ho : x ∈ e.onceList
    · rw [if_pos ho]
      have hne2 : pre ++ (Q ++ tail) ≠ [] := by
        intro hcon
        exact htail (List.append_eq_nil.1 (List.append_eq_nil.1 hcon).2).2
      have hrm : removeEventListener e n x =
          ⟨setListeners e.listeners n (pre ++ (Q ++ tail)), setDelete e.onceList x⟩ := by
        simp only [removeEventListener, hget', setDelete]
        rw [filterNe_split x pre (Q ++ tail) hxpre hxqt, if_neg hne2]
      rw [hrm]
      rw [ih f ⟨setListeners e.listeners n (pre ++ (Q ++ tail)), setDelete e.onceList x⟩ pre tail
        (x :: visited) (x :: logAcc)
        (getListeners_setListeners_self e.listeners n (pre ++ (Q ++ tail)))
        hndpr htail
        (fun y hy => List.mem_cons_of_mem _ (hpre y hy))
        hQt
        (fun y hy => hpure y (List.mem_cons_of_mem _ hy))
        (by simp only [List.length_cons] at hfuel; omega)]
      have hfilter : Q.filter (fun z => decide (z ∉ setDelete e.onceList x)) =
          Q.filter (fun z => decide (z ∉ e.onceList)) := by
        refine filterCongr _ _ _ (fun z hz => ?_)
        refine decide_eq_decide.2 ?_
        have hzx : z ≠ x := fun he => hxqt (he ▸ List.mem_append_left tail hz)
        simp [setDelete, List.mem_filter, hzx]
      have honce : (setDelete e.onceList x).filter (fun y => decide (y ∉ Q)) =
          e.onceList.filter (fun y => decide (y ∉ x :: Q)) := by
        rw [setDelete, List.filter_filter]
        refine filterCongr _ _ _ (fun y _ => ?_)
        by_cases h1 : y = x <;> by_cases h2 : y ∈ Q <;>
          simp [h1, h2, List.mem_cons]
      have hfx : (x :: Q).filter (fun z => decide (z ∉ e.onceList)) =
          Q.filter (fun z => decide (z ∉ e.onceList)) := by
        rw [List.filter_cons, if_neg (by simp [ho])]
      rw [hfilter, honce, hfx, setListeners_collapse]
      simp [Nat.succ_sub_succ]
    · rw [if_neg ho]
      rw [ih f e (pre ++ [x]) tail (x :: visited) (x :: logAcc)
        (by rw [show (pre ++ [x]) ++ (Q ++ tail) = pre ++ x :: (Q ++ tail) by simp]; exact hget')
        (by rw [show (pre ++ [x]) ++ (Q ++ tail) = pre ++ x :: (Q ++ tail) by simp]; exact hnd')
        htail
        (fun y hy => by
          rcases List.mem_append.1 hy with h1 | h1
          · exact List.mem_cons_of_mem _ (hpre y h1)
          · rw [List.mem_singleton.1 h1]; exact List.mem_cons_self _ _)
        hQt
        (fun y hy => hpure y (List.mem_cons_of_mem _ hy))
        (by simp only [List.length_cons] at hfuel; omega)]
      have honce : e.onceList.filter (fun y => decide (y ∉ Q)) =
          e.onceList.filter (fun y => decide (y ∉ x :: Q)) := by
        refine filterCongr _ _ _ (fun y hy => ?_)
        have hyx : y ≠ x := fun he => ho (he ▸ hy)
        simp [List.mem_cons, hyx]
      have hfx : (x :: Q).filter (fun z => decide (z ∉ e.onceList)) =
          x :: Q.filter (fun z => decide (z ∉ e.onceList)) := by
        rw [List.filter_cons, if_pos (by simp [ho])]
      rw [honce] at *
      rw [hfx]
      simp [Nat.succ_sub_succ]

/-! ### Invariant I2 preservation -/

theorem mem_setAdd_self (s : List Listener) (l : Listener) : l ∈ setAdd s l := by
  rw [setAdd]
  by_cases h : l ∈ s
  · rw [if_pos h]; exact h
  · simp [h]

theorem I2_addEventListener (e : EventEmitter) (n : EventName) (l : Listener) (o : Bool)
    (h : I2 e) : I2 (addEventListener e n l o) := by
  intro p hp
  simp only [addEventListener] at hp
  rcases mem_setListeners _ _ _ p hp with h1 | h1
  · exact h p h1
  · rw [h1]
    exact List.ne_nil_of_mem (mem_setAdd_self _ l)

theorem I2_removeEventListener (e : EventEmitter) (n : EventName) (l : Listener)
    (h : I2 e) : I2 (removeEventListener e n l) := by
  simp only [removeEventListener]
  split
  · exact h
  · intro p hp
    simp only at hp
    split at hp
    · exact h p (List.mem_filter.1 hp).1
    · rcases mem_setListeners _ _ _ p hp with h1 | h1
      · exact h p h1
      · rw [h1]
        simp only
        assumption

theorem I2_removeAllEventListeners (e : EventEmitter) : I2 (removeAllEventListeners e) := by
  intro p hp
  simp [removeAllEventListeners] at hp

theorem I2_runOp (e : EventEmitter) (op : EmitterOp) (h : I2 e) : I2 (runOp e op) := by
  cases op with
  | sub n l o => exact I2_addEventListener e n l o h
  | unsub n l => exact I2_removeEventListener e n l h
  | unsubAll => exact I2_removeAllEventListeners e

theorem I2_runOps (e : EventEmitter) (ops : List EmitterOp) (h : I2 e) : I2 (runOps e ops) := by
  induction ops generalizing e with
  | nil => exact h
  | cons op rest ih => exact ih (runOp e op) (I2_runOp e op h)

theorem I2_emitLoop (env : Listener → LBehavior) (n : EventName) :
    ∀ (fuel : Nat) (e : EventEmitter) (visited logAcc : List Listener),
    I2 e → I2 (emitLoop env n fuel e visited logAcc).state := by
  intro fuel
  induction fuel with
  | zero => intro e visited logAcc h; exact h
  | succ f ih =>
    intro e visited logAcc h
    rw [emitLoop]
    split
    · exact h
    · rename_i l hfind
      simp only
      split
      · exact I2_runOps e (env l).ops h
      · apply ih
        have h1 : I2 (runOps e (env l).ops) := I2_runOps e (env l).ops h
        split
        · exact I2_removeEventListener _ n _ h1
        · exact h1

theorem I2_emit (env : Listener → LBehavior) (e : EventEmitter) (n : EventName)
    (h : I2 e) : I2 (emit env e n).state := by
  rw [emit]
  split
  · exact h
  · exact I2_emitLoop env n _ e [] [] h

/-! ### Claim theorems -/

/-- C4: in every emitter state reachable from the freshly constructed emitter
by any sequence of subscribe, unsubscribe, unsubscribeAll and emit operations
(with arbitrary listener behaviors during emit), the registry never maps an
event name to an empty listener set — the entry is removed as soon as its set
empties. -/
theorem C4_I2_invariant (e : EventEmitter) (h : Reachable e) : I2 e := by
  induction h with
  | init => intro p hp; simp at hp
  | sub e' n l o _ ih => exact I2_addEventListener e' n l o ih
  | unsub e' n l _ ih => exact I2_removeEventListener e' n l ih
  | clear e' _ _ => exact I2_removeAllEventListeners e'
  | emitStep e' env n _ ih => exact I2_emit env e' n ih

theorem C4_I2_invariant_witness :
    I2 (addEventListener ⟨[], []⟩ "a" 0 false) :=
  C4_I2_invariant _ (Reachable.sub _ "a" 0 false Reachable.init)

/-- C1 counterexample: the claim says `unsubscribe(n, l)` removes `l` from
the OnceSet even when `n` has no listener set at all; in the code the early
`return` skips the `onceList.delete` line, so after subscribing listener `0`
once to `"a"` and unsubscribing it from the unused name `"b"`, listener `0`
is still in the once-set (indeed the whole state is untouched). -/
theorem C1_counterexample :
    removeEventListener (addEventListener ⟨[], []⟩ "a" 0 true) "b" 0 =
      addEventListener ⟨[], []⟩ "a" 0 true ∧
    0 ∈ (removeEventListener (addEventListener ⟨[], []⟩ "a" 0 true) "b" 0).onceList := by
  decide

/-- C1 (amended): `unsubscribe(n, l)` never fails.  When `n` has no listener
set at all the call is a complete no-op (the OnceSet too is left untouched).
When `n` has a listener set, `l` is removed from that set and from the
OnceSet (both no-ops if absent), the `n` entry is dropped exactly when its
set becomes empty, and no other event name is affected. -/
theorem C1_unsubscribe_spec (e : EventEmitter) (n : EventName) (l : Listener) :
    (getListeners e.listeners n = none → removeEventListener e n l = e) ∧
    (∀ ls, getListeners e.listeners n = some ls →
      (removeEventListener e n l).onceList = setDelete e.onceList l ∧
      l ∉ (removeEventListener e n l).onceList ∧
      getListeners (removeEventListener e n l).listeners n =
        (if setDelete ls l = [] then none else some (setDelete ls l)) ∧
      (∀ n', n' ≠ n → getListeners (removeEventListener e n l).listeners n' =
        getListeners e.listeners n')) := by
  constructor
  · intro h
    simp only [removeEventListener, h]
  · intro ls h
    have hrm : removeEventListener e n l =
        ⟨if setDelete ls l = [] then deleteEntry e.listeners n
          else setListeners e.listeners n (setDelete ls l),
         setDelete e.onceList l⟩ := by
      simp only [removeEventListener, h]
    rw [hrm]
    refine ⟨rfl, ?_, ?_, ?_⟩
    · simp [setDelete, List.mem_filter]
    · by_cases hls : setDelete ls l = []
      · rw [if_pos hls, if_pos hls]
        exact getListeners_deleteEntry_self e.listeners n
      · rw [if_neg hls, if_neg hls]
        exact getListeners_setListeners_self e.listeners n (setDelete ls l)
    · intro n' hn'
      by_cases hls : setDelete ls l = []
      · rw [if_pos hls]
        exact getListeners_deleteEntry_ne e.listeners n n' hn'
      · rw [if_neg hls]
        exact getListeners_setListeners_ne e.listeners n n' _ hn'

theorem C1_unsubscribe_spec_witness :
    (removeEventListener ⟨[("a", [0, 1])], [0]⟩ "a" 0).onceList = setDelete [0] 0 ∧
    0 ∉ (removeEventListener ⟨[("a", [0, 1])], [0]⟩ "a" 0).onceList :=
  ⟨((C1_unsubscribe_spec ⟨[("a", [0, 1])], [0]⟩ "a" 0).2 [0, 1] (by decide)).1,
   ((C1_unsubscribe_spec ⟨[("a", [0, 1])], [0]⟩ "a" 0).2 [0, 1] (by decide)).2.1⟩

/-- C7: `removeAllEventListeners` yields the state with empty registry and
empty once-set, is total and idempotent, and any subsequent emit on any name
invokes nobody and changes nothing. -/
theorem C7_unsubscribeAll (e : EventEmitter) :
    removeAllEventListeners e = ⟨[], []⟩ ∧
    removeAllEventListeners (removeAllEventListeners e) = removeAllEventListeners e ∧
    (∀ (env : Listener → LBehavior) (n : EventName),
      emit env (removeAllEventListeners e) n = ⟨⟨[], []⟩, [], false⟩) :=
  ⟨rfl, rfl, fun _ _ => rfl⟩

/-- C9: subscribing an already-subscribed listener again without the once
option leaves the entire emitter state (in particular the once-set)
unchanged; the once mark therefore survives. -/
theorem C9_subscribe_keeps_once (e : EventEmitter) (n : EventName) (l : Listener)
    (ls : List Listener) (hget : getListeners e.listeners n = some ls) (hl : l ∈ ls) :
    addEventListener e n l false = e ∧
    (l ∈ e.onceList → l ∈ (addEventListener e n l false).onceList) := by
  have hadd : setAdd ls l = ls := by rw [setAdd, if_pos hl]
  have h1 : addEventListener e n l false = e := by
    simp only [addEventListener, hget, Option.getD_some, hadd,
      setListeners_self e.listeners n ls hget, Bool.false_eq_true, if_false]
  exact ⟨h1, fun h => h1.symm ▸ h⟩

theorem C9_subscribe_keeps_once_witness :
    addEventListener ⟨[("a", [0])], [0]⟩ "a" 0 false = ⟨[("a", [0])], [0]⟩ ∧
    0 ∈ (addEventListener ⟨[("a", [0])], [0]⟩ "a" 0 false).onceList :=
  ⟨(C9_subscribe_keeps_once ⟨[("a", [0])], [0]⟩ "a" 0 [0] (by decide) (by decide)).1,
   (C9_subscribe_keeps_once ⟨[("a", [0])], [0]⟩ "a" 0 [0] (by decide) (by decide)).2 (by decide)⟩

theorem nodup_append_disj (u v : List Listener) (h : (u ++ v).Nodup) :
    ∀ y ∈ v, y ∉ u := by
  induction u with
  | nil => intro y _ hy; exact absurd hy (List.not_mem_nil y)
  | cons a u' ih =>
    rw [List.cons_append, List.nodup_cons] at h
    intro y hy
    simp only [List.mem_cons, not_or]
    refine ⟨?_, ih h.2 y hy⟩
    intro he
    exact h.1 (he ▸ List.mem_append_right u' hy)

/-- Scenario behind the second clause of C2: the listener list for `n` is
`P ++ a :: (mid ++ b :: post)`; the members of `P`, `mid` and `post` are pure,
and `a` unsubscribes the not-yet-visited `b` mid-pass.  Everybody except `b`
fires, in order; `b` is skipped. -/
theorem emit_midpass_unsub (env : Listener → LBehavior) (e : EventEmitter) (n : EventName)
    (P : List Listener) (a : Listener) (mid : List Listener) (b : Listener) (post : List Listener)
    (hget : getListeners e.listeners n = some (P ++ a :: (mid ++ b :: post)))
    (hnd : (P ++ a :: (mid ++ b :: post)).Nodup)
    (hpureP : ∀ x ∈ P, env x = pureB)
    (ha : env a = ⟨[EmitterOp.unsub n b], false⟩)
    (hpureRest : ∀ x ∈ mid ++ post, env x = pureB) :
    (emit env e n).log = P ++ a :: (mid ++ post) := by
  obtain ⟨haP, haRest, hnd1⟩ := nodup_split P a (mid ++ b :: post) hnd
  have hnd1' : ((P ++ mid) ++ b :: post).Nodup := by
    rw [List.append_assoc]; exact hnd1
  obtain ⟨hbPm, hbPost, hnd2⟩ := nodup_split (P ++ mid) b post hnd1'
  have hbP : b ∉ P := fun hmem => hbPm (List.mem_append_left mid hmem)
  have hbMid : b ∉ mid := fun hmem => hbPm (List.mem_append_right P hmem)
  have hba : b ≠ a := fun he => haRest (he ▸ List.mem_append_right mid (List.mem_cons_self b post))
  have haMid : a ∉ mid := fun hmem => haRest (List.mem_append_left _ hmem)
  have haPost : a ∉ post := fun hmem =>
    haRest (List.mem_append_right mid (List.mem_cons_of_mem b hmem))
  have haMidPost : a ∉ mid ++ post := by
    simp only [List.mem_append, not_or]
    exact ⟨haMid, haPost⟩
  have hdisjP : ∀ y ∈ mid ++ b :: post, y ∉ P := nodup_append_disj P (mid ++ b :: post) hnd1
  simp only [emit, hget]
  rw [emitLoop_pureSegment env n P ((P ++ a :: (mid ++ b :: post)).length + 1) e []
      (a :: (mid ++ b :: post)) [] []
      (by simpa using hget) (by simpa using hnd) (by simp)
      (fun y hy => absurd hy (List.not_mem_nil y))
      (fun y _ => List.not_mem_nil y)
      hpureP
      (by simp only [List.length_append, List.length_cons]; omega)]
  have hfuel1 : (P ++ a :: (mid ++ b :: post)).length + 1 - P.length =
      (mid.length + post.length + 2) + 1 := by
    simp only [List.length_append, List.length_cons]
    omega
  rw [hfuel1]
  simp only [List.nil_append, List.append_nil]
  have hPfP : ∀ y ∈ P.filter (fun x => decide (x ∉ e.onceList)), y ∈ P :=
    fun y hy => (List.mem_filter.1 hy).1
  have hfindA : ((getListeners
      (setListeners e.listeners n
        (P.filter (fun x => decide (x ∉ e.onceList)) ++ a :: (mid ++ b :: post))) n).getD
      []).find? (fun z => decide (z ∉ P.reverse)) = some a := by
    rw [getListeners_setListeners_self, Option.getD_some]
    refine find?_first P.reverse _ a (mid ++ b :: post) ?_ ?_
    · intro y hy; rw [List.mem_reverse]; exact hPfP y hy
    · rw [List.mem_reverse]; exact haP
  rw [emitLoop_step_nothrow env n (mid.length + post.length + 2) _ P.reverse P.reverse a hfindA
    (by rw [ha])]
  rw [ha]
  simp only [runOps, runOp]
  have haPf : a ∉ P.filter (fun x => decide (x ∉ e.onceList)) :=
    fun hmem => haP (hPfP a hmem)
  have hbPf : b ∉ P.filter (fun x => decide (x ∉ e.onceList)) :=
    fun hmem => hbP (hPfP b hmem)
  have hrm1 : removeEventListener
      ⟨setListeners e.listeners n
        (P.filter (fun x => decide (x ∉ e.onceList)) ++ a :: (mid ++ b :: post)),
       e.onceList.filter (fun y => decide (y ∉ P))⟩ n b =
      ⟨setListeners e.listeners n
        (P.filter (fun x => decide (x ∉ e.onceList)) ++ a :: (mid ++ post)),
       setDelete (e.onceList.filter (fun y => decide (y ∉ P))) b⟩ := by
    simp only [removeEventListener, getListeners_setListeners_self]
    have hsplit : setDelete
        (P.filter (fun x => decide (x ∉ e.onceList)) ++ a :: (mid ++ b :: post)) b =
        P.filter (fun x => decide (x ∉ e.onceList)) ++ a :: (mid ++ post) := by
      rw [setDelete, show P.filter (fun x => decide (x ∉ e.onceList)) ++ a :: (mid ++ b :: post) =
        (P.filter (fun x => decide (x ∉ e.onceList)) ++ a :: mid) ++ b :: post by simp]
      rw [filterNe_split b _ post (by
        simp only [List.mem_append, List.mem_cons, not_or]
        exact ⟨hbPf, hba, hbMid⟩) hbPost]
      simp
    rw [hsplit, if_neg (by simp), setListeners_collapse]
  rw [hrm1]
  by_cases haOnce : a ∈ setDelete (e.onceList.filter (fun y => decide (y ∉ P))) b
  · rw [if_pos haOnce]
    have hrm2 : removeEventListener
        ⟨setListeners e.listeners n
          (P.filter (fun x => decide (x ∉ e.onceList)) ++ a :: (mid ++ post)),
         setDelete (e.onceList.filter (fun y => decide (y ∉ P))) b⟩ n a =
        ⟨if P.filter (fun x => decide (x ∉ e.onceList)) ++ (mid ++ post) = []
           then deleteEntry e.listeners n
           else setListeners e.listeners n
             (P.filter (fun x => decide (x ∉ e.onceList)) ++ (mid ++ post)),
         setDelete (setDelete (e.onceList.filter (fun y => decide (y ∉ P))) b) a⟩ := by
      simp only [removeEventListener, getListeners_setListeners_self]
      have hsplit2 : setDelete
          (P.filter (fun x => decide (x ∉ e.onceList)) ++ a :: (mid ++ post)) a =
          P.filter (fun x => decide (x ∉ e.onceList)) ++ (mid ++ post) := by
        rw [setDelete]
        exact filterNe_split a _ (mid ++ post) haPf haMidPost
      rw [hsplit2]
      by_cases hem : P.filter (fun x => decide (x ∉ e.onceList)) ++ (mid ++ post) = []
      · rw [if_pos hem, if_pos hem, deleteEntry_setListeners]
      · rw [if_neg hem, if_neg hem, setListeners_collapse]
    rw [hrm2]
    by_cases hem : P.filter (fun x => decide (x ∉ e.onceList)) ++ (mid ++ post) = []
    · rw [if_pos hem]
      obtain ⟨hPfnil, hmidpost⟩ := List.append_eq_nil.1 hem
      obtain ⟨hmidnil, hpostnil⟩ := List.append_eq_nil.1 hmidpost
      have hfuel2 : mid.length + post.length + 2 = 1 + 1 := by
        rw [hmidnil, hpostnil]; rfl
      rw [hfuel2]
      rw [emitLoop_stop env n 1 _ (a :: P.reverse) (a :: P.reverse) (by
        show ((getListeners (deleteEntry e.listeners n) n).getD []).find? _ = none
        rw [getListeners_deleteEntry_self]
        rfl)]
      rw [hmidnil, hpostnil]
      simp
    · rw [if_neg hem]
      rw [emitLoop_pure env n (mid ++ post) (mid.length + post.length + 2)
        ⟨setListeners e.listeners n
          (P.filter (fun x => decide (x ∉ e.onceList)) ++ (mid ++ post)),
         setDelete (setDelete (e.onceList.filter (fun y => decide (y ∉ P))) b) a⟩
        (P.filter (fun x => decide (x ∉ e.onceList))) (a :: P.reverse) (a :: P.reverse)
        (getListeners_setListeners_self e.listeners n _)
        (by
          have hsub : (P.filter (fun x => decide (x ∉ e.onceList)) ++ (mid ++ post)).Sublist
              (P ++ (mid ++ b :: post)) := by
            refine List.Sublist.append (List.filter_sublist P) ?_
            exact List.Sublist.append_left (List.sublist_cons_self b post) mid
          exact List.Nodup.sublist hsub hnd1)
        hem
        (fun y hy => List.mem_cons_of_mem a (by rw [List.mem_reverse]; exact hPfP y hy))
        (fun y hy => by
          simp only [List.mem_cons, not_or, List.mem_reverse]
          have hy' : y ∈ mid ++ b :: post := by
            rcases List.mem_append.1 hy with h1 | h1
            · exact List.mem_append_left _ h1
            · exact List.mem_append_right mid (List.mem_cons_of_mem b h1)
          exact ⟨fun he => haMidPost (he ▸ hy), hdisjP y hy'⟩)
        hpureRest
        (by simp [List.length_append])]
      simp
  · rw [if_neg haOnce]
    rw [emitLoop_pure env n (mid ++ post) (mid.length + post.length + 2)
      ⟨setListeners e.listeners n
        (P.filter (fun x => decide (x ∉ e.onceList)) ++ a :: (mid ++ post)),
       setDelete (e.onceList.filter (fun y => decide (y ∉ P))) b⟩
      (P.filter (fun x => decide (x ∉ e.onceList)) ++ [a]) (a :: P.reverse) (a :: P.reverse)
      (by
        rw [getListeners_setListeners_self]
        simp)
      (by
        have hsub : ((P.filter (fun x => decide (x ∉ e.onceList)) ++ [a]) ++ (mid ++ post)).Sublist
            (P ++ a :: (mid ++ b :: post)) := by
          have h1 : (P.filter (fun x => decide (x ∉ e.onceList)) ++ [a]) ++ (mid ++ post) =
              P.filter (fun x => decide (x ∉ e.onceList)) ++ a :: (mid ++ post) := by simp
          rw [h1]
          refine List.Sublist.append (List.filter_sublist P) ?_
          refine List.Sublist.cons₂ a ?_
          exact List.Sublist.append_left (List.sublist_cons_self b post) mid
        exact List.Nodup.sublist hsub hnd)
      (by simp)
      (fun y hy => by
        rcases List.mem_append.1 hy with h1 | h1
        · exact List.mem_cons_of_mem a (by rw [List.mem_reverse]; exact hPfP y h1)
        · rw [List.mem_singleton.1 h1]; exact List.mem_cons_self a _)
      (fun y hy => by
        simp only [List.mem_cons, not_or, List.mem_reverse]
        have hy' : y ∈ mid ++ b :: post := by
          rcases List.mem_append.1 hy with h1 | h1
          · exact List.mem_append_left _ h1
          · exact List.mem_append_right mid (List.mem_cons_of_mem b h1)
        exact ⟨fun he => haMidPost (he ▸ hy), hdisjP y hy'⟩)
      hpureRest
      (by simp [List.length_append])]
    simp

/-- C2: when the listeners registered for `n` at the start of `emit` do not
touch the emitter, exactly those listeners are invoked, each exactly once, in
subscription (insertion) order.  Additionally, if listener `a` unsubscribes a
later, not-yet-visited listener `b` during the pass, everybody except `b`
still fires in order — `b` is not invoked, while listeners already invoked
before the removal stay invoked. -/
theorem C2_emit_order (env : Listener → LBehavior) (e : EventEmitter) (n : EventName)
    (ls : List Listener) (hget : getListeners e.listeners n = some ls)
    (hnd : ls.Nodup) (hne : ls ≠ []) :
    ((∀ x ∈ ls, env x = pureB) →
      (emit env e n).log = ls ∧ (emit env e n).threw = false) ∧
    (∀ P a mid b post, ls = P ++ a :: (mid ++ b :: post) →
      (∀ x ∈ P, env x = pureB) →
      env a = ⟨[EmitterOp.unsub n b], false⟩ →
      (∀ x ∈ mid ++ post, env x = pureB) →
      (emit env e n).log = P ++ a :: (mid ++ post) ∧
      b ∉ (emit env e n).log ∧
      (∀ x ∈ P, x ∈ (emit env e n).log)) := by
  constructor
  · intro hpure
    rw [emit_pure env e n ls hget hnd hne hpure]
    exact ⟨rfl, rfl⟩
  · intro P a mid b post hshape hpureP ha hpureRest
    subst hshape
    have hlog := emit_midpass_unsub env e n P a mid b post hget hnd hpureP ha hpureRest
    obtain ⟨haP, haRest, hnd1⟩ := nodup_split P a (mid ++ b :: post) hnd
    have hnd1' : ((P ++ mid) ++ b :: post).Nodup := by
      rw [List.append_assoc]; exact hnd1
    obtain ⟨hbPm, hbPost, _⟩ := nodup_split (P ++ mid) b post hnd1'
    have hba : b ≠ a := fun he =>
      haRest (he ▸ List.mem_append_right mid (List.mem_cons_self b post))
    refine ⟨hlog, ?_, ?_⟩
    · rw [hlog]
      intro hmem
      rcases List.mem_append.1 hmem with h1 | h1
      · exact hbPm (List.mem_append_left mid h1)
      · rcases List.mem_cons.1 h1 with h2 | h2
        · exact hba h2
        · rcases List.mem_append.1 h2 with h3 | h3
          · exact hbPm (List.mem_append_right P h3)
          · exact hbPost h3
    · intro x hx
      rw [hlog]
      exact List.mem_append_left _ hx

theorem C2_emit_order_witness :
    (emit (fun l => if l = 1 then LBehavior.mk [EmitterOp.unsub "x" 2] false else pureB)
        ⟨[("x", [0, 1, 2, 3])], []⟩ "x").log = [0] ++ 1 :: ([] ++ [3]) ∧
    2 ∉ (emit (fun l => if l = 1 then LBehavior.mk [EmitterOp.unsub "x" 2] false else pureB)
        ⟨[("x", [0, 1, 2, 3])], []⟩ "x").log :=
  ⟨((C2_emit_order _ _ "x" [0, 1, 2, 3] (by decide) (by decide) (by decide)).2
      [0] 1 [] 2 [3] (by decide) (by decide) (by decide) (by decide)).1,
   ((C2_emit_order _ _ "x" [0, 1, 2, 3] (by decide) (by decide) (by decide)).2
      [0] 1 [] 2 [3] (by decide) (by decide) (by decide) (by decide)).2.1⟩

/-- After a listener has left the listener set for `n`, repeated emissions
with pure listeners never invoke it again. -/
theorem emitTimes_pure_absent (env : Listener → LBehavior) (n : EventName) (l : Listener)
    (M : List Listener) (hpureM : ∀ x ∈ M, env x = pureB) :
    ∀ (N : Nat) (s : EventEmitter),
    (getListeners s.listeners n = none ∨
      ∃ ls₁, getListeners s.listeners n = some ls₁ ∧ ls₁.Nodup ∧
        (∀ x ∈ ls₁, x ∈ M) ∧ l ∉ ls₁) →
    countOcc (emitTimes env n N s).2 l = 0 := by
  intro N
  induction N with
  | zero => intro s _; rfl
  | succ N' ih =>
    intro s hinv
    rcases hinv with hnone | ⟨ls₁, hsome, hnd₁, hsub₁, hl₁⟩
    · have hstep : emit env s n = ⟨s, [], false⟩ := by
        simp only [emit, hnone]
      simp only [emitTimes, hstep]
      exact ih s (Or.inl hnone)
    · by_cases hnil : ls₁ = []
      · subst hnil
        have hstep : emit env s n = ⟨s, [], false⟩ := by
          simp only [emit, hsome, List.length_nil]
          rw [emitLoop_stop env n 0 s [] [] (by rw [hsome]; rfl)]
          rfl
        simp only [emitTimes, hstep]
        exact ih s (Or.inr ⟨[], hsome, hnd₁, hsub₁, hl₁⟩)
      · have hstep : emit env s n = ⟨pureRunState s n ls₁, ls₁, false⟩ :=
          emit_pure env s n ls₁ hsome hnd₁ hnil (fun x hx => hpureM x (hsub₁ x hx))
        simp only [emitTimes, hstep]
        rw [countOcc_append, countOcc_eq_zero ls₁ l hl₁]
        have hnext : getListeners (pureRunState s n ls₁).listeners n = none ∨
            ∃ ls₂, getListeners (pureRunState s n ls₁).listeners n = some ls₂ ∧ ls₂.Nodup ∧
              (∀ x ∈ ls₂, x ∈ M) ∧ l ∉ ls₂ := by
          by_cases hrem : ls₁.filter (fun x => decide (x ∉ s.onceList)) = []
          · left
            simp only [pureRunState, hrem, if_pos]
            exact getListeners_deleteEntry_self s.listeners n
          · right
            refine ⟨ls₁.filter (fun x => decide (x ∉ s.onceList)), ?_, ?_, ?_, ?_⟩
            · simp only [pureRunState, if_neg hrem]
              exact getListeners_setListeners_self s.listeners n _
            · exact List.Nodup.filter _ hnd₁
            · intro x hx; exact hsub₁ x (List.mem_filter.1 hx).1
            · intro hmem; exact hl₁ (List.mem_filter.1 hmem).1
        simpa using ih (pureRunState s n ls₁) hnext

/-- C3: a listener `l` subscribed for `n` with the once option set (member of
the once-set) and pure listeners all around: emitting `n` any `N ≥ 1` times
invokes `l` exactly once; after the first emit `l` is gone from both the
listener set for `n` and the once-set; and within the pass, the removal is
performed by the very `removeEventListener` logic immediately after `l`
returns and before the next listener is selected. -/
theorem C3_once_semantics (env : Listener → LBehavior) (e : EventEmitter) (n : EventName)
    (l : Listener) (ls : List Listener)
    (hget : getListeners e.listeners n = some ls) (hnd : ls.Nodup) (hl : l ∈ ls)
    (honce : l ∈ e.onceList) (hpure : ∀ x ∈ ls, env x = pureB) :
    (∀ N, 1 ≤ N → countOcc (emitTimes env n N e).2 l = 1) ∧
    (l ∉ ((getListeners (emit env e n).state.listeners n).getD []) ∧
      l ∉ (emit env e n).state.onceList) ∧
    (∀ (fuel : Nat) (s : EventEmitter) (visited logAcc : List Listener),
      ((getListeners s.listeners n).getD []).find? (fun z => decide (z ∉ visited)) = some l →
      l ∈ s.onceList →
      emitLoop env n (fuel + 1) s visited logAcc =
        emitLoop env n fuel (removeEventListener s n l) (l :: visited) (l :: logAcc)) := by
  have hne : ls ≠ [] := List.ne_nil_of_mem hl
  have hstep : emit env e n = ⟨pureRunState e n ls, ls, false⟩ :=
    emit_pure env e n ls hget hnd hne hpure
  have hinv : getListeners (pureRunState e n ls).listeners n = none ∨
      ∃ ls₂, getListeners (pureRunState e n ls).listeners n = some ls₂ ∧ ls₂.Nodup ∧
        (∀ x ∈ ls₂, x ∈ ls) ∧ l ∉ ls₂ := by
    by_cases hrem : ls.filter (fun x => decide (x ∉ e.onceList)) = []
    · left
      simp only [pureRunState, hrem, if_pos]
      exact getListeners_deleteEntry_self e.listeners n
    · right
      refine ⟨ls.filter (fun x => decide (x ∉ e.onceList)), ?_, List.Nodup.filter _ hnd,
        fun x hx => (List.mem_filter.1 hx).1, fun hmem => ?_⟩
      · simp only [pureRunState, if_neg hrem]
        exact getListeners_setListeners_self e.listeners n _
      · have := (List.mem_filter.1 hmem).2
        simp only [decide_eq_true_eq] at this
        exact this honce
  refine ⟨?_, ?_, ?_⟩
  · intro N hN
    obtain ⟨N', rfl⟩ : ∃ N', N = N' + 1 := ⟨N - 1, by omega⟩
    simp only [emitTimes, hstep]
    rw [countOcc_append, countOcc_eq_one ls l hnd hl,
      emitTimes_pure_absent env n l ls hpure N' (pureRunState e n ls) hinv]
  · rw [hstep]
    constructor
    · rcases hinv with hnone | ⟨ls₂, hsome, _, _, hl₂⟩
      · rw [hnone]; exact List.not_mem_nil l
      · rw [hsome]; exact hl₂
    · simp only [pureRunState]
      intro hmem
      have := (List.mem_filter.1 hmem).2
      simp only [decide_eq_true_eq] at this
      exact this hl
  · intro fuel s visited logAcc hfind hls
    rw [emitLoop_step_pure env n fuel s visited logAcc l hfind (hpure l hl), if_pos hls]

theorem C3_once_semantics_witness :
    countOcc (emitTimes (fun _ => pureB) "a" 3 ⟨[("a", [5])], [5]⟩).2 5 = 1 ∧
    5 ∉ (emit (fun _ => pureB) ⟨[("a", [5])], [5]⟩ "a").state.onceList :=
  ⟨(C3_once_semantics (fun _ => pureB) ⟨[("a", [5])], [5]⟩ "a" 5 [5]
      (by decide) (by decide) (by decide) (by decide) (by decide)).1 3 (by decide),
   (C3_once_semantics (fun _ => pureB) ⟨[("a", [5])], [5]⟩ "a" 5 [5]
      (by decide) (by decide) (by decide) (by decide) (by decide)).2.1.2⟩

/-- One `emit` pass whose pure segment `P` is followed by a thrower `t`: the
loop stops right after `t`, the error propagates (`threw = true`), and the
final state is the post-segment state transformed by `t`'s own API calls. -/
theorem emit_throw (env : Listener → LBehavior) (e : EventEmitter) (n : EventName)
    (P : List Listener) (t : Listener) (rest : List Listener)
    (hget : getListeners e.listeners n = some (P ++ t :: rest))
    (hnd : (P ++ t :: rest).Nodup)
    (hpureP : ∀ x ∈ P, env x = pureB)
    (ht : (env t).throws = true) :
    emit env e n =
      ⟨runOps
        ⟨setListeners e.listeners n (P.filter (fun x => decide (x ∉ e.onceList)) ++ t :: rest),
         e.onceList.filter (fun y => decide (y ∉ P))⟩ (env t).ops,
       P ++ [t], true⟩ := by
  obtain ⟨htP, htRest, hnd1⟩ := nodup_split P t rest hnd
  simp only [emit, hget]
  rw [emitLoop_pureSegment env n P ((P ++ t :: rest).length + 1) e [] (t :: rest) [] []
      (by simpa using hget) (by simpa using hnd) (by simp)
      (fun y hy => absurd hy (List.not_mem_nil y))
      (fun y _ => List.not_mem_nil y)
      hpureP
      (by simp only [List.length_append, List.length_cons]; omega)]
  have hfuel1 : (P ++ t :: rest).length + 1 - P.length = rest.length + 1 + 1 := by
    simp only [List.length_append, List.length_cons]
    omega
  rw [hfuel1]
  simp only [List.nil_append, List.append_nil]
  have hPfP : ∀ y ∈ P.filter (fun x => decide (x ∉ e.onceList)), y ∈ P :=
    fun y hy => (List.mem_filter.1 hy).1
  have hfindT : ((getListeners
      (setListeners e.listeners n
        (P.filter (fun x => decide (x ∉ e.onceList)) ++ t :: rest)) n).getD
      []).find? (fun z => decide (z ∉ P.reverse)) = some t := by
    rw [getListeners_setListeners_self, Option.getD_some]
    refine find?_first P.reverse _ t rest ?_ ?_
    · intro y hy; rw [List.mem_reverse]; exact hPfP y hy
    · rw [List.mem_reverse]; exact htP
  rw [emitLoop_step_throw env n (rest.length + 1) _ P.reverse P.reverse t hfindT ht]
  simp

/-- C5: when a listener throws during `emit`, the error is not caught — it
propagates to the caller — and the listeners for `n` that were not yet
visited in that pass are never invoked. -/
theorem C5_throw_propagates (env : Listener → LBehavior) (e : EventEmitter) (n : EventName)
    (P : List Listener) (t : Listener) (rest : List Listener)
    (hget : getListeners e.listeners n = some (P ++ t :: rest))
    (hnd : (P ++ t :: rest).Nodup)
    (hpureP : ∀ x ∈ P, env x = pureB)
    (ht : (env t).throws = true) :
    (emit env e n).threw = true ∧
    (emit env e n).log = P ++ [t] ∧
    (∀ x ∈ rest, x ∉ (emit env e n).log) := by
  obtain ⟨htP, htRest, hnd1⟩ := nodup_split P t rest hnd
  have hdisj : ∀ y ∈ t :: rest, y ∉ P := nodup_append_disj P (t :: rest) hnd
  rw [emit_throw env e n P t rest hget hnd hpureP ht]
  refine ⟨rfl, rfl, ?_⟩
  intro x hx hmem
  rcases List.mem_append.1 hmem with h1 | h1
  · exact hdisj x (List.mem_cons_of_mem t hx) h1
  · rw [List.mem_singleton.1 h1] at hx
    exact htRest hx

theorem C5_throw_propagates_witness :
    (emit (fun l => if l = 1 then LBehavior.mk [] true else pureB)
        ⟨[("x", [0, 1, 2])], []⟩ "x").threw = true ∧
    (emit (fun l => if l = 1 then LBehavior.mk [] true else pureB)
        ⟨[("x", [0, 1, 2])], []⟩ "x").log = [0] ++ [1] :=
  ⟨(C5_throw_propagates _ _ "x" [0] 1 [2] (by decide) (by decide) (by decide) (by decide)).1,
   (C5_throw_propagates _ _ "x" [0] 1 [2] (by decide) (by decide) (by decide) (by decide)).2.1⟩

/-- C10: a once-marked listener that throws is not consumed: the once check
sits after the listener call, so the throw skips it.  `l` stays in `n`'s
listener set and in the once-set, and fires again on the next emit. -/
theorem C10_once_throw_not_consumed (env : Listener → LBehavior) (e : EventEmitter)
    (n : EventName) (P : List Listener) (l : Listener) (rest : List Listener)
    (hget : getListeners e.listeners n = some (P ++ l :: rest))
    (hnd : (P ++ l :: rest).Nodup)
    (hpureP : ∀ x ∈ P, env x = pureB)
    (hl : env l = ⟨[], true⟩)
    (honce : l ∈ e.onceList) :
    (emit env e n).threw = true ∧
    (emit env e n).log = P ++ [l] ∧
    l ∈ ((getListeners (emit env e n).state.listeners n).getD []) ∧
    l ∈ (emit env e n).state.onceList ∧
    l ∈ (emit env (emit env e n).state n).log := by
  obtain ⟨hlP, hlRest, hnd1⟩ := nodup_split P l rest hnd
  have ht : (env l).throws = true := by rw [hl]
  rw [emit_throw env e n P l rest hget hnd hpureP ht]
  rw [hl]
  simp only [runOps]
  refine ⟨trivial, trivial, ?_, ?_, ?_⟩
  · rw [getListeners_setListeners_self, Option.getD_some]
    exact List.mem_append_right _ (List.mem_cons_self l rest)
  · simp only [List.mem_filter, decide_eq_true_eq]
    exact ⟨honce, hlP⟩
  · have hsub : (P.filter (fun x => decide (x ∉ e.onceList)) ++ l :: rest).Sublist
        (P ++ l :: rest) :=
      List.Sublist.append (List.filter_sublist P) (List.Sublist.refl (l :: rest))
    rw [emit_throw env
      ⟨setListeners e.listeners n (P.filter (fun x => decide (x ∉ e.onceList)) ++ l :: rest),
       e.onceList.filter (fun y => decide (y ∉ P))⟩ n
      (P.filter (fun x => decide (x ∉ e.onceList))) l rest
      (getListeners_setListeners_self e.listeners n _)
      (List.Nodup.sublist hsub hnd)
      (fun x hx => hpureP x ((List.mem_filter.1 hx).1))
      ht]
    exact List.mem_append_right _ (List.mem_singleton.2 rfl)

theorem C10_once_throw_not_consumed_witness :
    (emit (fun _ => LBehavior.mk [] true) ⟨[("x", [4])], [4]⟩ "x").threw = true ∧
    4 ∈ (emit (fun _ => LBehavior.mk [] true) ⟨[("x", [4])], [4]⟩ "x").state.onceList ∧
    4 ∈ (emit (fun _ => LBehavior.mk [] true)
          (emit (fun _ => LBehavior.mk [] true) ⟨[("x", [4])], [4]⟩ "x").state "x").log :=
  ⟨(C10_once_throw_not_consumed _ _ "x" [] 4 [] (by decide) (by decide) (by decide)
      (by decide) (by decide)).1,
   (C10_once_throw_not_consumed _ _ "x" [] 4 [] (by decide) (by decide) (by decide)
      (by decide) (by decide)).2.2.2.1,
   (C10_once_throw_not_consumed _ _ "x" [] 4 [] (by decide) (by decide) (by decide)
      (by decide) (by decide)).2.2.2.2⟩

theorem setAdd_nodup (s : List Listener) (l : Listener) (h : s.Nodup) :
    (setAdd s l).Nodup := by
  rw [setAdd]
  by_cases hm : l ∈ s
  · rw [if_pos hm]; exact h
  · rw [if_neg hm]
    refine List.Nodup.append h (List.nodup_singleton l) ?_
    intro a ha hb
    rw [List.mem_singleton.1 hb] at ha
    exact hm ha

theorem setAdd_idem (s : List Listener) (l : Listener) :
    setAdd (setAdd s l) l = setAdd s l := by
  rw [setAdd]
  exact if_pos (mem_setAdd_self s l)

/-- C6: subscribing the exact same listener reference twice to the same name
coalesces into a single subscription — the double subscription equals one
subscription with the merged once flag, and one emit with pure listeners
invokes the listener exactly once, not twice. -/
theorem C6_idempotent_subscribe (e : EventEmitter) (n : EventName) (l : Listener)
    (o₁ o₂ : Bool) (env : Listener → LBehavior) :
    addEventListener (addEventListener e n l o₁) n l o₂ =
      addEventListener e n l (o₁ || o₂) ∧
    (((getListeners e.listeners n).getD []).Nodup →
      (∀ x ∈ setAdd ((getListeners e.listeners n).getD []) l, env x = pureB) →
      countOcc (emit env (addEventListener (addEventListener e n l o₁) n l o₂) n).log l = 1) := by
  have heq : addEventListener (addEventListener e n l o₁) n l o₂ =
      addEventListener e n l (o₁ || o₂) := by
    simp only [addEventListener, getListeners_setListeners_self, Option.getD_some]
    congr 1
    · rw [setAdd_idem, setListeners_collapse]
    · cases o₁ <;> cases o₂ <;> simp [setAdd_idem]
  refine ⟨heq, ?_⟩
  intro hnd₀ hpure
  rw [heq]
  have hget' : getListeners (addEventListener e n l (o₁ || o₂)).listeners n =
      some (setAdd ((getListeners e.listeners n).getD []) l) := by
    simp only [addEventListener]
    exact getListeners_setListeners_self e.listeners n _
  rw [emit_pure env _ n (setAdd ((getListeners e.listeners n).getD []) l) hget'
    (setAdd_nodup _ l hnd₀)
    (List.ne_nil_of_mem (mem_setAdd_self _ l))
    hpure]
  exact countOcc_eq_one _ l (setAdd_nodup _ l hnd₀) (mem_setAdd_self _ l)

theorem C6_idempotent_subscribe_witness :
    addEventListener (addEventListener ⟨[], []⟩ "a" 0 true) "a" 0 false =
      addEventListener ⟨[], []⟩ "a" 0 (true || false) ∧
    countOcc (emit (fun _ => pureB)
      (addEventListener (addEventListener ⟨[], []⟩ "a" 0 true) "a" 0 false) "a").log 0 = 1 :=
  ⟨(C6_idempotent_subscribe ⟨[], []⟩ "a" 0 true false (fun _ => pureB)).1,
   (C6_idempotent_subscribe ⟨[], []⟩ "a" 0 true false (fun _ => pureB)).2
     (by decide) (by decide)⟩

/-- C8: the once mark is keyed by listener reference alone.  Subscribe `l`
once on `a` and plainly on a different name `b`; the first emit of `b`
invokes `l`, then removes `l` from `b`'s set and from the global once-set.
So `l`'s subscription on `a` is never auto-removed: every subsequent emit of
`a` invokes `l` again. -/
theorem C8_once_mark_by_reference (a b : EventName) (l : Listener)
    (env : Listener → LBehavior) (hab : a ≠ b) (hl : env l = pureB) :
    (emit env (addEventListener (addEventListener ⟨[], []⟩ a l true) b l false) b).log = [l] ∧
    (emit env (addEventListener (addEventListener ⟨[], []⟩ a l true) b l false) b).threw = false ∧
    getListeners (emit env (addEventListener (addEventListener ⟨[], []⟩ a l true) b l false)
      b).state.listeners b = none ∧
    (emit env (addEventListener (addEventListener ⟨[], []⟩ a l true) b l false)
      b).state.onceList = [] ∧
    getListeners (emit env (addEventListener (addEventListener ⟨[], []⟩ a l true) b l false)
      b).state.listeners a = some [l] ∧
    (∀ N, countOcc (emitTimes env a N
      (emit env (addEventListener (addEventListener ⟨[], []⟩ a l true) b l false)
        b).state).2 l = N) := by
  have h1 : addEventListener ⟨[], []⟩ a l true = ⟨[(a, [l])], [l]⟩ := rfl
  have h2 : addEventListener ⟨[(a, [l])], [l]⟩ b l false = ⟨[(a, [l]), (b, [l])], [l]⟩ := by
    have hgb : getListeners [(a, [l])] b = none := by
      simp [getListeners, hab]
    simp only [addEventListener, hgb, Option.getD_none]
    congr 1
    simp [setListeners, setAdd, hab]
  have hgb2 : getListeners [(a, [l]), (b, [l])] b = some [l] := by
    simp [getListeners, hab]
  have hrm : removeEventListener ⟨[(a, [l]), (b, [l])], [l]⟩ b l = ⟨[(a, [l])], []⟩ := by
    simp only [removeEventListener, hgb2]
    have hdel : setDelete [l] l = [] := by simp [setDelete]
    rw [hdel, if_pos rfl]
    congr 1
    simp [deleteEntry, hab]
  have h3 : emit env ⟨[(a, [l]), (b, [l])], [l]⟩ b = ⟨⟨[(a, [l])], []⟩, [l], false⟩ := by
    simp only [emit, hgb2, List.length_cons, List.length_nil]
    rw [emitLoop_step_pure env b 1 ⟨[(a, [l]), (b, [l])], [l]⟩ [] [] l
      (by rw [hgb2]; rfl) hl]
    rw [if_pos (show l ∈ (⟨[(a, [l]), (b, [l])], [l]⟩ : EventEmitter).onceList from
      List.mem_singleton.2 rfl)]
    rw [hrm]
    rw [emitLoop_stop env b 0 ⟨[(a, [l])], []⟩ [l] [l] (by
      have hga : getListeners [(a, [l])] b = none := by simp [getListeners, hab]
      show ((getListeners [(a, [l])] b).getD []).find? _ = none
      rw [hga]
      rfl)]
    rfl
  have hga : getListeners [(a, [l])] a = some [l] := by
    simp [getListeners]
  have hstepA : emit env ⟨[(a, [l])], []⟩ a = ⟨⟨[(a, [l])], []⟩, [l], false⟩ := by
    rw [emit_pure env ⟨[(a, [l])], []⟩ a [l] hga (List.nodup_singleton l) (by simp)
      (fun x hx => by rw [List.mem_singleton.1 hx]; exact hl)]
    have hrem : List.filter (fun x => decide (x ∉ ([] : List Listener))) [l] = [l] := by
      simp
    simp only [pureRunState, hrem, List.filter_nil]
    rw [if_neg (by simp), setListeners_self [(a, [l])] a [l] hga]
  rw [h1, h2, h3]
  refine ⟨rfl, rfl, by simp [getListeners, hab], rfl, hga, ?_⟩
  intro N
  induction N with
  | zero => rfl
  | succ N' ih =>
    simp only [emitTimes, hstepA]
    have hco : countOcc [l] l = 1 := by simp [countOcc]
    rw [countOcc_append, hco, ih]
    omega

theorem C8_once_mark_by_reference_witness :
    (emit (fun _ => pureB) (addEventListener (addEventListener ⟨[], []⟩ "a" 7 true) "b" 7 false)
      "b").log = [7] ∧
    (emit (fun _ => pureB) (addEventListener (addEventListener ⟨[], []⟩ "a" 7 true) "b" 7 false)
      "b").state.onceList = [] ∧
    countOcc (emitTimes (fun _ => pureB) "a" 2
      (emit (fun _ => pureB) (addEventListener (addEventListener ⟨[], []⟩ "a" 7 true) "b" 7 false)
        "b").state).2 7 = 2 :=
  ⟨(C8_once_mark_by_reference "a" "b" 7 (fun _ => pureB) (by decide) (by decide)).1,
   (C8_once_mark_by_reference "a" "b" 7 (fun _ => pureB) (by decide) (by decide)).2.2.2.1,
   (C8_once_mark_by_reference "a" "b" 7 (fun _ => pureB) (by decide) (by decide)).2.2.2.2.2 2⟩
